import Mathlib

/-!
Verification of the `formatAmount` helper of mx-sdk-dapp-utils
(src/src/helpers/formatAmount.ts, the implementation at lines 292-409,
which is the variant cited by the claims of the specification).

The embedding models the two external collaborators by their documented
behaviour at the call sites that `formatAmount` uses:

* bignumber.js: construction from a decimal string, `isZero`, `isNegative`,
  `toString(10)` (canonical decimal form, never exponential when a base is
  given), `toFixed(dp)` and `toFormat`.  A `BigNumber` value is represented
  here by the pair (integer part, fractional digits); `toString(10)` of a
  non-negative value renders the canonical integer digits, a point, and the
  fractional digits with trailing zeros removed.
* @multiversx/sdk-core `TokenTransfer.fungibleFromBigInteger(_, s, decimals)`
  followed by `.amountAsBigInteger.shiftedBy(-decimals).toFixed(decimals)`:
  an exact decimal-point shift of the integer `s` by `decimals` places, so
  the resulting value is `s / 10 ^ decimals` exactly.

Numbers are modelled as `Nat` (the magnitude) plus an explicit sign, since
all arithmetic in the source is exact arbitrary-precision decimal
arithmetic on integer inputs.
-/

namespace SdkDappUtils

/-- Modelled from the spec: the constant `DECIMALS` (imported from
`../constants`, not present in the snapshot); the spec fixes the default
number of decimals to 18. -/
def DECIMALS : Nat := 18

/-- Modelled from the spec: the constant `DIGITS` (imported from
`../constants`, not present in the snapshot); the spec fixes the default
display precision to 4. -/
def DIGITS : Nat := 4

/-- Modelled from the spec: the constant `ZERO` (imported from
`../constants`, not present in the snapshot); the spec says a zero value
returns the literal string "0". -/
def ZERO : String := "0"

/-- Numeric value of a decimal digit character ('0' is 48 in Unicode). -/
def charVal (c : Char) : Nat := c.toNat - 48

/-- Value of a most-significant-first list of decimal digit characters,
as bignumber.js reads a digit string. -/
def digitsToNat (l : List Char) : Nat :=
  l.foldl (fun a c => 10 * a + charVal c) 0

/-- Little-endian digit characters of `n`, with explicit fuel (the fuel is
only a termination bound: any fuel at least `n` gives the digits of `n`). -/
def natDigitsAux : Nat → Nat → List Char
  | 0, _ => []
  | _ + 1, 0 => []
  | fuel + 1, n + 1 =>
    Nat.digitChar ((n + 1) % 10) :: natDigitsAux fuel ((n + 1) / 10)

/-- Canonical decimal digit characters of `n`, most significant first, as
bignumber.js renders the integer part of a value with `toString(10)`. -/
def natChars (n : Nat) : List Char :=
  if n = 0 then ['0'] else (natDigitsAux n n).reverse

/-- Left-pad a digit string with zeros to length `d`: the fractional digits
of `r / 10 ^ d` as rendered by `toFixed(d)` are the digits of `r` preceded
by enough zeros to occupy exactly `d` places. -/
def padLeftZeros (l : List Char) (d : Nat) : List Char :=
  List.replicate (d - l.length) '0' ++ l

/-- Remove the trailing run of '0' characters, as the regular expression
replacement of the trailing zero run and the canonical `toString(10)`
rendering of a fraction both do. -/
def trimTrailingZeros (l : List Char) : List Char :=
  (l.reverse.dropWhile (· == '0')).reverse

/-- The full `d`-place fractional expansion of `r / 10 ^ d` (for
`r < 10 ^ d`): digits of `r` left-padded with zeros to `d` places. -/
def fullFracChars (r d : Nat) : List Char :=
  padLeftZeros (natChars r) d

/-- The `decimalPart` produced by `bnBalance.toString(10).split('.')`:
the fractional expansion with trailing zeros removed (empty when the
fraction is zero). -/
def decimalPartChars (r d : Nat) : List Char :=
  trimTrailingZeros (fullFracChars r d)

/-- Thousands grouping, little-endian worker: `k` digits of the current
reversed tail have been consumed; a ',' is placed before every third
consumed digit except at the start. -/
def gAux : List Char → Nat → List Char
  | [], _ => []
  | c :: rest, k =>
    (if k ≠ 0 ∧ k % 3 = 0 then [','] else []) ++ c :: gAux rest (k + 1)

/-- Thousands grouping of an integer digit string, by 3 digits from the
right with ',' as separator: the default `toFormat` grouping of
bignumber.js. -/
def groupInt (l : List Char) : List Char :=
  (gAux l.reverse 0).reverse

/-- bignumber.js `toFormat()` (no argument) applied to the value whose
canonical integer digits are `int` and whose fractional digits are `frac`:
the canonical rendering (trailing fractional zeros dropped, no point when
the fraction is zero) with the integer part grouped. -/
def toFormatCanon (int frac : List Char) : List Char :=
  groupInt int ++
    (if trimTrailingZeros frac = [] then [] else '.' :: trimTrailingZeros frac)

/-- bignumber.js `toFormat(dp)` applied at the call sites of
`formatAmount`, where the constructed value always has exactly `dp`
fractional digits `frac` (so no rounding occurs): the integer part
grouped, then the `dp` fractional digits, with no point when `dp = 0`. -/
def toFormatFixed (int frac : List Char) (dp : Nat) : List Char :=
  groupInt int ++ (if dp = 0 then [] else '.' :: frac)

/-- Modelled from the spec: the validator `stringIsInteger` (its source
`src/helpers/stringIsInteger.ts` is not in the snapshot; only the call
site `stringIsInteger(input, false)` is).  The spec defines validity as
matching the integer-literal grammar: optional leading '-', then one or
more digits, no decimal point, no exponent. -/
def stringIsInteger (s : String) : Bool :=
  let t := if s.data.head? = some '-' then s.data.tail else s.data
  !t.isEmpty && t.all Char.isDigit

/-- The magnitude digits of a validated input: the input with a leading
'-' stripped (`input.substring(1)` when `isNegative`). -/
def magnitudeChars (cs : List Char) : List Char :=
  if cs.head? = some '-' then cs.tail else cs

/-- Body of `formatAmount` on the magnitude `m` (the value of `modInput`),
with `decimals = d` and `digits = g`: lines 316-406 of the source.  The
value under formatting is `m / 10 ^ d`; its integer part is `q = m / 10^d`
rounded down and its fraction is `r / 10 ^ d` with `r = m % 10 ^ d`. -/
def formatPositive (m d g : Nat)
    (addCommas showIsLessThanDecimalsLabel showLastNonZeroDecimal : Bool) :
    List Char :=
  let q := m / 10 ^ d
  let r := m % 10 ^ d
  let integerPart := natChars q
  let decimalPart := decimalPartChars r d
  if decimalPart = [] ∨ digitsToNat decimalPart = 0 then
    if addCommas then groupInt integerPart else integerPart
  else
    let shownDecimalsAreZero :=
      1 ≤ g ∧ g ≤ decimalPart.length ∧ digitsToNat (decimalPart.take g) = 0
    if shownDecimalsAreZero then
      if digitsToNat integerPart ≠ 0 then
        let zeros := List.replicate g '0'
        if addCommas then toFormatFixed integerPart zeros g
        else integerPart ++ '.' :: zeros
      else if showIsLessThanDecimalsLabel then
        let minAmount := List.replicate (g - 1) '0' ++ ['1']
        '<' :: '0' :: '.' :: minAmount
      else if showLastNonZeroDecimal = false then
        let zeros := List.replicate g '0'
        if addCommas then toFormatFixed ['0'] zeros g
        else '0' :: '.' :: zeros
      else
        let trimmedDecimal := trimTrailingZeros decimalPart
        let finalDecimal :=
          if g ≤ trimmedDecimal.length then trimmedDecimal
          else trimmedDecimal ++ List.replicate (g - trimmedDecimal.length) '0'
        if addCommas then toFormatCanon ['0'] finalDecimal
        else '0' :: '.' :: finalDecimal
    else
      if showLastNonZeroDecimal then
        let trimmedDecimal := trimTrailingZeros decimalPart
        let finalDecimal :=
          if g ≤ trimmedDecimal.length then trimmedDecimal
          else trimmedDecimal ++ List.replicate (g - trimmedDecimal.length) '0'
        if addCommas then toFormatCanon integerPart finalDecimal
        else integerPart ++ '.' :: finalDecimal
      else
        let processedDecimal0 := decimalPart.take g
        let processedDecimal :=
          processedDecimal0 ++
            List.replicate (g - processedDecimal0.length) '0'
        if addCommas then toFormatFixed integerPart processedDecimal g
        else integerPart ++ '.' :: processedDecimal

/-- The exported `formatAmount` (lines 292-409): validate the input,
record the sign, strip it, shift by `decimals`, return "0" for a zero
value, otherwise format the magnitude and reattach the sign.  A thrown
thrown error with message Invalid input is modelled as `Except.error`. -/
def formatAmount (input : String) (decimals digits : Nat)
    (addCommas showIsLessThanDecimalsLabel showLastNonZeroDecimal : Bool) :
    Except String String :=
  if stringIsInteger input then
    let isNegative := input.data.head? = some '-'
    let m := digitsToNat (magnitudeChars input.data)
    if m = 0 then Except.ok ZERO
    else
      Except.ok (String.mk
        ((if isNegative then ['-'] else []) ++
          formatPositive m decimals digits addCommas
            showIsLessThanDecimalsLabel showLastNonZeroDecimal))
  else Except.error ("Invalid input")

/-- Calling `formatAmount` with every option left at its default
(`decimals = DECIMALS`, `digits = DIGITS`, `addCommas = false`,
`showIsLessThanDecimalsLabel = false`, `showLastNonZeroDecimal = true`). -/
def formatAmountDefault (input : String) : Except String String :=
  formatAmount input DECIMALS DIGITS false false true

/-- Integer side of a rendered string: the characters before the first
point (the whole string when there is no point). -/
def intSide (l : List Char) : List Char := l.takeWhile (· != '.')

/-- Fractional side of a rendered string: the characters after the first
point (empty when there is no point). -/
def fracSide (l : List Char) : List Char := (l.dropWhile (· != '.')).drop 1

/-- The first `g` digits of the exact fractional expansion of
`r / 10 ^ d`, right-padded with zeros to exactly `g` places (positions
beyond `d` are zero). -/
def trueFracWindow (r d g : Nat) : List Char :=
  (fullFracChars r d ++ List.replicate (g - d) '0').take g

/-! Support lemmas about digit rendering and digit values. -/

/-- Little-endian digit value, matching `digitsToNat` after a reverse. -/
def valLE (l : List Char) : Nat :=
  l.foldr (fun c a => 10 * a + charVal c) 0

theorem valLE_cons (c : Char) (l : List Char) :
    valLE (c :: l) = 10 * valLE l + charVal c := rfl

theorem digitsToNat_reverse (l : List Char) :
    digitsToNat l.reverse = valLE l := by
  simp [digitsToNat, valLE, List.foldl_reverse]

theorem natDigitsAux_zero (fuel : Nat) : natDigitsAux fuel 0 = [] := by
  cases fuel <;> rfl

theorem charVal_digitChar (k : Nat) (h : k < 10) :
    charVal (Nat.digitChar k) = k := by
  interval_cases k <;> rfl

theorem valLE_natDigitsAux (fuel : Nat) :
    ∀ n, n ≤ fuel → valLE (natDigitsAux fuel n) = n := by
  induction fuel with
  | zero =>
    intro n h
    interval_cases n
    rfl
  | succ f ih =>
    intro n h
    match n with
    | 0 => rfl
    | n + 1 =>
      have hdle : (n + 1) / 10 ≤ f := by
        have : (n + 1) / 10 < n + 1 := Nat.div_lt_self (by omega) (by omega)
        omega
      simp only [natDigitsAux, valLE_cons]
      rw [ih ((n + 1) / 10) hdle, charVal_digitChar _ (Nat.mod_lt _ (by omega))]
      omega

theorem digitsToNat_natChars (n : Nat) : digitsToNat (natChars n) = n := by
  by_cases h : n = 0
  · subst h; rfl
  · simp only [natChars, if_neg h]
    rw [digitsToNat_reverse, valLE_natDigitsAux n n le_rfl]

theorem mem_natDigitsAux (fuel : Nat) :
    ∀ n c, c ∈ natDigitsAux fuel n → ∃ k, k < 10 ∧ c = Nat.digitChar k := by
  induction fuel with
  | zero => intro n c hc; simp [natDigitsAux] at hc
  | succ f ih =>
    intro n c hc
    match n with
    | 0 => simp [natDigitsAux] at hc
    | n + 1 =>
      simp only [natDigitsAux, List.mem_cons] at hc
      rcases hc with hc | hc
      · exact ⟨(n + 1) % 10, Nat.mod_lt _ (by omega), hc⟩
      · exact ih _ c hc

theorem mem_natChars (n : Nat) (c : Char) (h : c ∈ natChars n) :
    ∃ k, k < 10 ∧ c = Nat.digitChar k := by
  by_cases hn : n = 0
  · subst hn
    rw [show natChars 0 = ['0'] from rfl] at h
    simp only [List.mem_singleton] at h
    exact ⟨0, by omega, by rw [h]; decide⟩
  · simp only [natChars, if_neg hn, List.mem_reverse] at h
    exact mem_natDigitsAux n n c h

theorem digitsToNat_concat (a : List Char) (c : Char) :
    digitsToNat (a ++ [c]) = 10 * digitsToNat a + charVal c := by
  simp [digitsToNat, List.foldl_append]

theorem digitsToNat_append (a b : List Char) :
    digitsToNat (a ++ b) =
      digitsToNat a * 10 ^ b.length + digitsToNat b := by
  induction b generalizing a with
  | nil => simp [digitsToNat]
  | cons c t ih =>
    rw [show a ++ c :: t = (a ++ [c]) ++ t by simp, ih, digitsToNat_concat]
    rw [show (c :: t : List Char) = [c] ++ t from rfl, ih]
    have h1 : digitsToNat [c] = charVal c := by simp [digitsToNat]
    rw [h1]
    simp only [List.length_append, List.length_cons, List.length_nil]
    ring

theorem digitsToNat_replicate_zero (k : Nat) :
    digitsToNat (List.replicate k '0') = 0 := by
  induction k with
  | zero => rfl
  | succ k ih => rw [List.replicate_succ]; exact ih

theorem digitsToNat_leading_zeros (k : Nat) (l : List Char) :
    digitsToNat (List.replicate k '0' ++ l) = digitsToNat l := by
  rw [digitsToNat_append, digitsToNat_replicate_zero]
  simp

theorem digitsToNat_cons (c : Char) (t : List Char) :
    digitsToNat (c :: t) = charVal c * 10 ^ t.length + digitsToNat t := by
  rw [show (c :: t : List Char) = [c] ++ t from rfl, digitsToNat_append]
  simp [digitsToNat]

theorem all_zero_of_digitsToNat_eq_zero (l : List Char)
    (hd : ∀ c ∈ l, ∃ k, k < 10 ∧ c = Nat.digitChar k)
    (hv : digitsToNat l = 0) : ∀ c ∈ l, c = '0' := by
  induction l with
  | nil => simp
  | cons c t ih =>
    rw [digitsToNat_cons] at hv
    have hpow : 0 < 10 ^ t.length := Nat.pos_pow_of_pos _ (by omega)
    have hsplit : charVal c * 10 ^ t.length = 0 ∧ digitsToNat t = 0 :=
      Nat.add_eq_zero.mp hv
    have hc0 : charVal c = 0 := by
      rcases Nat.mul_eq_zero.mp hsplit.1 with h | h
      · exact h
      · omega
    have hc : c = '0' := by
      obtain ⟨k, hk, hck⟩ := hd c (List.mem_cons_self c t)
      have : k = 0 := by rw [hck, charVal_digitChar k hk] at hc0; exact hc0
      rw [hck, this]
      decide
    intro x hx
    rcases List.mem_cons.mp hx with h | h
    · rw [h, hc]
    · exact ih (fun y hy => hd y (List.mem_cons_of_mem c hy)) hsplit.2 x h

theorem digitsToNat_eq_zero_of_all_zero (l : List Char)
    (h : ∀ c ∈ l, c = '0') : digitsToNat l = 0 := by
  have hrep : l = List.replicate l.length '0' := List.eq_replicate_of_mem h
  rw [hrep, digitsToNat_replicate_zero]

theorem length_natDigitsAux_le (fuel : Nat) :
    ∀ n k, n ≤ fuel → n < 10 ^ k → (natDigitsAux fuel n).length ≤ k := by
  induction fuel with
  | zero =>
    intro n k h _
    interval_cases n
    simp [natDigitsAux_zero]
  | succ f ih =>
    intro n k h hk
    match n with
    | 0 => simp [natDigitsAux_zero]
    | n + 1 =>
      match k with
      | 0 => simp at hk
      | k + 1 =>
        simp only [natDigitsAux, List.length_cons]
        have h1 : (n + 1) / 10 ≤ f := by
          have : (n + 1) / 10 < n + 1 := Nat.div_lt_self (by omega) (by omega)
          omega
        have h2 : (n + 1) / 10 < 10 ^ k := by
          rw [Nat.div_lt_iff_lt_mul (by omega)]
          calc n + 1 < 10 ^ (k + 1) := hk
            _ = 10 ^ k * 10 := by ring
        have := ih ((n + 1) / 10) k h1 h2
        omega

theorem length_natChars_le (n k : Nat) (hn : n ≠ 0) (hk : n < 10 ^ k) :
    (natChars n).length ≤ k := by
  simp only [natChars, if_neg hn, List.length_reverse]
  exact length_natDigitsAux_le n n k le_rfl hk

/-! Support lemmas about trailing-zero trimming. -/

theorem dropWhile_self_idem {α : Type} (q : α → Bool) (l : List α) :
    (l.dropWhile q).dropWhile q = l.dropWhile q := by
  induction l with
  | nil => rfl
  | cons c t ih =>
    by_cases h : q c
    · simp only [List.dropWhile_cons, h, if_true]
      exact ih
    · simp only [List.dropWhile_cons, h, if_false]
      simp [List.dropWhile_cons, h]

theorem trimTrailingZeros_append_replicate (l : List Char) (k : Nat) :
    trimTrailingZeros (l ++ List.replicate k '0') = trimTrailingZeros l := by
  unfold trimTrailingZeros
  rw [List.reverse_append, List.reverse_replicate]
  congr 1
  induction k with
  | zero => simp
  | succ k ih =>
    rw [List.replicate_succ, List.cons_append, List.dropWhile_cons]
    simp only [beq_self_eq_true, if_true]
    exact ih

theorem trimTrailingZeros_spec (l : List Char) :
    l = trimTrailingZeros l ++
      List.replicate (l.length - (trimTrailingZeros l).length) '0' := by
  have hsplit : l.reverse =
      List.takeWhile (· == '0') l.reverse ++
        List.dropWhile (· == '0') l.reverse :=
    (List.takeWhile_append_dropWhile (· == '0') l.reverse).symm
  have hlsum : (List.takeWhile (· == '0') l.reverse).length +
      (List.dropWhile (· == '0') l.reverse).length = l.length := by
    have := congrArg List.length hsplit
    simp only [List.length_reverse, List.length_append] at this
    omega
  have hlen : (trimTrailingZeros l).length =
      (List.dropWhile (· == '0') l.reverse).length := by
    simp [trimTrailingZeros]
  have htkrev : (List.takeWhile (· == '0') l.reverse).reverse =
      List.replicate ((List.takeWhile (· == '0') l.reverse).reverse).length
        '0' := by
    refine List.eq_replicate_of_mem (fun b hb => ?_)
    have := List.mem_takeWhile_imp (List.mem_reverse.mp hb)
    simpa using this
  have hj : ((List.takeWhile (· == '0') l.reverse).reverse).length =
      l.length - (trimTrailingZeros l).length := by
    simp only [List.length_reverse]
    omega
  calc l = l.reverse.reverse := (List.reverse_reverse l).symm
    _ = (List.takeWhile (· == '0') l.reverse ++
          List.dropWhile (· == '0') l.reverse).reverse := by rw [← hsplit]
    _ = (List.dropWhile (· == '0') l.reverse).reverse ++
          (List.takeWhile (· == '0') l.reverse).reverse :=
        List.reverse_append _ _
    _ = trimTrailingZeros l ++
          List.replicate (l.length - (trimTrailingZeros l).length) '0' := by
        rw [htkrev, hj]
        rfl

theorem trimTrailingZeros_idem (l : List Char) :
    trimTrailingZeros (trimTrailingZeros l) = trimTrailingZeros l := by
  unfold trimTrailingZeros
  rw [List.reverse_reverse]
  congr 1
  exact dropWhile_self_idem _ _

theorem trimTrailingZeros_length_le (l : List Char) :
    (trimTrailingZeros l).length ≤ l.length := by
  have := congrArg List.length (trimTrailingZeros_spec l)
  simp only [List.length_append, List.length_replicate] at this
  omega

theorem mem_trimTrailingZeros (l : List Char) (c : Char)
    (h : c ∈ trimTrailingZeros l) : c ∈ l := by
  rw [trimTrailingZeros_spec l]
  exact List.mem_append_left _ h

theorem trimTrailingZeros_eq_nil_iff (l : List Char) :
    trimTrailingZeros l = [] ↔ ∀ c ∈ l, c = '0' := by
  unfold trimTrailingZeros
  rw [List.reverse_eq_nil_iff, List.dropWhile_eq_nil_iff]
  constructor
  · intro h c hc
    have := h c (List.mem_reverse.mpr hc)
    simpa using this
  · intro h c hc
    have := h c (List.mem_reverse.mp hc)
    simpa using this

/-! Support lemmas about the fractional expansion. -/

theorem length_fullFracChars (r d : Nat) (hr : r ≠ 0) (hlt : r < 10 ^ d) :
    (fullFracChars r d).length = d := by
  have hle : (natChars r).length ≤ d := length_natChars_le r d hr hlt
  simp only [fullFracChars, padLeftZeros, List.length_append,
    List.length_replicate]
  omega

theorem fullFracChars_digits (r d : Nat) (c : Char)
    (h : c ∈ fullFracChars r d) : ∃ k, k < 10 ∧ c = Nat.digitChar k := by
  simp only [fullFracChars, padLeftZeros, List.mem_append] at h
  rcases h with h | h
  · exact ⟨0, by omega, by rw [List.eq_of_mem_replicate h]; decide⟩
  · exact mem_natChars _ _ h

theorem digitsToNat_fullFracChars (r d : Nat) :
    digitsToNat (fullFracChars r d) = r := by
  simp only [fullFracChars, padLeftZeros]
  rw [digitsToNat_leading_zeros, digitsToNat_natChars]

theorem decimalPartChars_digits (r d : Nat) (c : Char)
    (h : c ∈ decimalPartChars r d) : ∃ k, k < 10 ∧ c = Nat.digitChar k :=
  fullFracChars_digits r d c (mem_trimTrailingZeros _ c h)

theorem fullFrac_decomp (r d : Nat) :
    fullFracChars r d = decimalPartChars r d ++
      List.replicate
        ((fullFracChars r d).length - (decimalPartChars r d).length) '0' :=
  trimTrailingZeros_spec _

theorem decimalPartChars_ne_nil (r d : Nat) (hr : r ≠ 0) :
    decimalPartChars r d ≠ [] := by
  intro h
  have hz : ∀ c ∈ fullFracChars r d, c = '0' :=
    (trimTrailingZeros_eq_nil_iff _).mp h
  have := digitsToNat_eq_zero_of_all_zero _ hz
  rw [digitsToNat_fullFracChars] at this
  exact hr this

theorem digitsToNat_decimalPartChars_ne_zero (r d : Nat) (hr : r ≠ 0) :
    digitsToNat (decimalPartChars r d) ≠ 0 := by
  intro h
  have hz : ∀ c ∈ decimalPartChars r d, c = '0' :=
    all_zero_of_digitsToNat_eq_zero _ (decimalPartChars_digits r d) h
  have hfz : ∀ c ∈ fullFracChars r d, c = '0' := by
    intro c hc
    rw [fullFrac_decomp r d] at hc
    rcases List.mem_append.mp hc with hc | hc
    · exact hz c hc
    · exact List.eq_of_mem_replicate hc
  have := digitsToNat_eq_zero_of_all_zero _ hfz
  rw [digitsToNat_fullFracChars] at this
  exact hr this

theorem whole_cond_iff (r d : Nat) :
    (decimalPartChars r d = [] ∨ digitsToNat (decimalPartChars r d) = 0) ↔
      r = 0 := by
  constructor
  · intro h
    by_contra hr
    rcases h with h | h
    · exact decimalPartChars_ne_nil r d hr h
    · exact digitsToNat_decimalPartChars_ne_zero r d hr h
  · intro h
    subst h
    left
    refine (trimTrailingZeros_eq_nil_iff _).mpr (fun c hc => ?_)
    simp only [fullFracChars, padLeftZeros, List.mem_append] at hc
    rcases hc with hc | hc
    · exact List.eq_of_mem_replicate hc
    · rw [show natChars 0 = ['0'] from rfl] at hc
      simpa using hc

theorem decimalPartChars_length_le (r d : Nat) (hr : r ≠ 0)
    (hlt : r < 10 ^ d) : (decimalPartChars r d).length ≤ d := by
  have h := trimTrailingZeros_length_le (fullFracChars r d)
  rw [length_fullFracChars r d hr hlt] at h
  exact h

theorem decimalPartChars_eq_take (r d : Nat) :
    decimalPartChars r d =
      (fullFracChars r d).take (decimalPartChars r d).length := by
  conv_rhs => rw [fullFrac_decomp r d]
  exact (List.take_left _ _).symm

theorem take_decimalPartChars (r d g : Nat)
    (hg : g ≤ (decimalPartChars r d).length) :
    (decimalPartChars r d).take g = (fullFracChars r d).take g := by
  conv_rhs => rw [fullFrac_decomp r d]
  rw [List.take_append_of_le_length hg]

theorem trueFracWindow_eq_take (r d g : Nat) (hr : r ≠ 0) (hlt : r < 10 ^ d)
    (hg : g ≤ d) : trueFracWindow r d g = (fullFracChars r d).take g := by
  unfold trueFracWindow
  rw [List.take_append_of_le_length]
  rw [length_fullFracChars r d hr hlt]
  exact hg

theorem trueFracWindow_eq_append (r d g : Nat) (hr : r ≠ 0)
    (hlt : r < 10 ^ d) (hg : d ≤ g) :
    trueFracWindow r d g = fullFracChars r d ++ List.replicate (g - d) '0' := by
  unfold trueFracWindow
  apply List.take_of_length_le
  simp only [List.length_append, List.length_replicate,
    length_fullFracChars r d hr hlt]
  omega

theorem length_trueFracWindow (r d g : Nat) (hr : r ≠ 0) (hlt : r < 10 ^ d) :
    (trueFracWindow r d g).length = g := by
  unfold trueFracWindow
  rw [List.length_take]
  simp only [List.length_append, List.length_replicate,
    length_fullFracChars r d hr hlt]
  omega

theorem take_pad_eq_trueFracWindow (r d g : Nat) (hr : r ≠ 0)
    (hlt : r < 10 ^ d) :
    (decimalPartChars r d).take g ++
      List.replicate (g - ((decimalPartChars r d).take g).length) '0' =
      trueFracWindow r d g := by
  by_cases hgD : g ≤ (decimalPartChars r d).length
  · have hlen : ((decimalPartChars r d).take g).length = g := by
      rw [List.length_take]
      omega
    rw [hlen, Nat.sub_self, List.replicate_zero, List.append_nil]
    rw [take_decimalPartChars r d g hgD]
    exact (trueFracWindow_eq_take r d g hr hlt
      (le_trans hgD (decimalPartChars_length_le r d hr hlt))).symm
  · push_neg at hgD
    have hDd := decimalPartChars_length_le r d hr hlt
    have htD : (decimalPartChars r d).take g = decimalPartChars r d :=
      List.take_of_length_le (by omega)
    rw [htD]
    by_cases hgd : g ≤ d
    · rw [trueFracWindow_eq_take r d g hr hlt hgd]
      conv_rhs => rw [fullFrac_decomp r d]
      rw [List.take_append_eq_append_take, htD, List.take_replicate]
      congr 2
      rw [length_fullFracChars r d hr hlt]
      omega
    · rw [trueFracWindow_eq_append r d g hr hlt (by omega)]
      conv_rhs => rw [fullFrac_decomp r d]
      rw [List.append_assoc, ← List.replicate_add]
      congr 2
      rw [length_fullFracChars r d hr hlt]
      omega

theorem shown_iff_window_zero (r d g : Nat) (hr : r ≠ 0) (hlt : r < 10 ^ d) :
    (1 ≤ g ∧ g ≤ (decimalPartChars r d).length ∧
        digitsToNat ((decimalPartChars r d).take g) = 0) ↔
      (1 ≤ g ∧ ∀ c ∈ trueFracWindow r d g, c = '0') := by
  constructor
  · rintro ⟨hg1, hgD, hval⟩
    refine ⟨hg1, ?_⟩
    have hgd : g ≤ d := le_trans hgD (decimalPartChars_length_le r d hr hlt)
    rw [trueFracWindow_eq_take r d g hr hlt hgd,
      ← take_decimalPartChars r d g hgD]
    exact all_zero_of_digitsToNat_eq_zero _
      (fun c hc => decimalPartChars_digits r d c (List.mem_of_mem_take hc))
      hval
  · rintro ⟨hg1, hW⟩
    have hgd : g ≤ d := by
      by_contra hgd
      push_neg at hgd
      have hweq := trueFracWindow_eq_append r d g hr hlt (by omega)
      have hfz : ∀ c ∈ fullFracChars r d, c = '0' := by
        intro c hc
        exact hW c (by rw [hweq]; exact List.mem_append_left _ hc)
      have h0 := digitsToNat_eq_zero_of_all_zero _ hfz
      rw [digitsToNat_fullFracChars] at h0
      exact hr h0
    have hWt := trueFracWindow_eq_take r d g hr hlt hgd
    have hgD : g ≤ (decimalPartChars r d).length := by
      by_contra hc
      push_neg at hc
      have hDz : ∀ c ∈ decimalPartChars r d, c = '0' := by
        intro c hcm
        apply hW
        rw [hWt]
        have hDF := decimalPartChars_eq_take r d
        have hmm : decimalPartChars r d =
            ((fullFracChars r d).take g).take
              (decimalPartChars r d).length := by
          rw [List.take_take]
          rw [show min (decimalPartChars r d).length g =
            (decimalPartChars r d).length by omega]
          exact hDF
        rw [hmm] at hcm
        exact List.mem_of_mem_take hcm
      exact digitsToNat_decimalPartChars_ne_zero r d hr
        (digitsToNat_eq_zero_of_all_zero _ hDz)
    refine ⟨hg1, hgD, ?_⟩
    rw [take_decimalPartChars r d g hgD, ← hWt]
    exact digitsToNat_eq_zero_of_all_zero _ hW

/-! Support lemmas about splitting a rendered string at the point. -/

theorem intSide_append_of_no_point (a b : List Char) (h : '.' ∉ a) :
    intSide (a ++ b) = a ++ intSide b := by
  unfold intSide
  apply List.takeWhile_append_of_pos
  intro c hc
  simp only [bne_iff_ne, ne_eq]
  intro hcc
  exact h (hcc ▸ hc)

theorem fracSide_append_of_no_point (a b : List Char) (h : '.' ∉ a) :
    fracSide (a ++ b) = fracSide b := by
  unfold fracSide
  rw [List.dropWhile_append_of_pos]
  intro c hc
  simp only [bne_iff_ne, ne_eq]
  intro hcc
  exact h (hcc ▸ hc)

theorem intSide_point_cons (t : List Char) : intSide ('.' :: t) = [] := by
  simp [intSide, List.takeWhile_cons]

theorem fracSide_point_cons (t : List Char) : fracSide ('.' :: t) = t := by
  simp [fracSide, List.dropWhile_cons]

theorem intSide_of_no_point (l : List Char) (h : '.' ∉ l) : intSide l = l := by
  have := intSide_append_of_no_point l [] h
  simpa [intSide] using this

theorem fracSide_of_no_point (l : List Char) (h : '.' ∉ l) :
    fracSide l = [] := by
  have := fracSide_append_of_no_point l [] h
  simpa [fracSide] using this

theorem point_not_mem_natChars (n : Nat) : '.' ∉ natChars n := by
  intro h
  obtain ⟨k, hk, hck⟩ := mem_natChars n _ h
  interval_cases k <;> exact absurd hck (by decide)

theorem mem_gAux (l : List Char) :
    ∀ k c, c ∈ gAux l k → c ∈ l ∨ c = ',' := by
  induction l with
  | nil => intro k c hc; simp [gAux] at hc
  | cons a t ih =>
    intro k c hc
    simp only [gAux, List.mem_append, List.mem_cons] at hc
    rcases hc with hc | hc | hc
    · right
      split at hc
      · simpa using hc
      · simp at hc
    · exact Or.inl (hc ▸ List.mem_cons_self a t)
    · rcases ih (k + 1) c hc with h | h
      · exact Or.inl (List.mem_cons_of_mem a h)
      · exact Or.inr h

theorem point_not_mem_groupInt (l : List Char) (h : '.' ∉ l) :
    '.' ∉ groupInt l := by
  intro hx
  unfold groupInt at hx
  rw [List.mem_reverse] at hx
  rcases mem_gAux _ _ _ hx with hm | hm
  · exact h (List.mem_reverse.mp hm)
  · exact absurd hm (by decide)

theorem intSide_sign_append (p : Prop) [Decidable p] (b : List Char) :
    intSide ((if p then ['-'] else []) ++ b) =
      (if p then ['-'] else []) ++ intSide b := by
  apply intSide_append_of_no_point
  split <;> simp

theorem fracSide_sign_append (p : Prop) [Decidable p] (b : List Char) :
    fracSide ((if p then ['-'] else []) ++ b) = fracSide b := by
  apply fracSide_append_of_no_point
  split <;> simp

theorem trim_decimalPartChars (r d : Nat) :
    trimTrailingZeros (decimalPartChars r d) = decimalPartChars r d := by
  unfold decimalPartChars
  exact trimTrailingZeros_idem _

/-! Branch lemmas for `formatPositive`. -/

theorem formatPositive_whole (m d g : Nat) (ac lbl sl : Bool)
    (hr : m % 10 ^ d = 0) :
    formatPositive m d g ac lbl sl =
      if ac then groupInt (natChars (m / 10 ^ d))
      else natChars (m / 10 ^ d) := by
  simp only [formatPositive]
  rw [if_pos ((whole_cond_iff _ _).mpr hr)]

theorem formatPositive_not_shown_fixed (m d g : Nat) (ac lbl : Bool)
    (hr : m % 10 ^ d ≠ 0)
    (hns : ¬ (1 ≤ g ∧ ∀ c ∈ trueFracWindow (m % 10 ^ d) d g, c = '0')) :
    formatPositive m d g ac lbl false =
      if ac then
        toFormatFixed (natChars (m / 10 ^ d))
          (trueFracWindow (m % 10 ^ d) d g) g
      else
        natChars (m / 10 ^ d) ++ '.' :: trueFracWindow (m % 10 ^ d) d g := by
  have hlt : m % 10 ^ d < 10 ^ d :=
    Nat.mod_lt _ (Nat.pos_pow_of_pos _ (by omega))
  have hshown : ¬ (1 ≤ g ∧ g ≤ (decimalPartChars (m % 10 ^ d) d).length ∧
      digitsToNat ((decimalPartChars (m % 10 ^ d) d).take g) = 0) :=
    fun h => hns ((shown_iff_window_zero _ _ _ hr hlt).mp h)
  simp only [formatPositive]
  rw [if_neg (fun h => hr ((whole_cond_iff _ _).mp h)), if_neg hshown]
  simp only [Bool.false_eq_true, if_false]
  rw [take_pad_eq_trueFracWindow _ _ _ hr hlt]

theorem formatPositive_shown_nolabel_fixed (m d g : Nat) (ac : Bool)
    (hr : m % 10 ^ d ≠ 0)
    (hsh : 1 ≤ g ∧ ∀ c ∈ trueFracWindow (m % 10 ^ d) d g, c = '0') :
    formatPositive m d g ac false false =
      if ac then
        toFormatFixed (natChars (m / 10 ^ d)) (List.replicate g '0') g
      else natChars (m / 10 ^ d) ++ '.' :: List.replicate g '0' := by
  have hlt : m % 10 ^ d < 10 ^ d :=
    Nat.mod_lt _ (Nat.pos_pow_of_pos _ (by omega))
  have hshown := (shown_iff_window_zero _ _ _ hr hlt).mpr hsh
  simp only [formatPositive]
  rw [if_neg (fun h => hr ((whole_cond_iff _ _).mp h)), if_pos hshown]
  by_cases hq : m / 10 ^ d = 0
  · rw [if_neg (by rw [digitsToNat_natChars]; simpa using hq)]
    simp only [Bool.false_eq_true, if_false]
    rw [hq]
    rfl
  · rw [if_pos (by rw [digitsToNat_natChars]; simpa using hq)]

theorem formatPositive_fixed (m d g : Nat) (ac : Bool)
    (hr : m % 10 ^ d ≠ 0) :
    formatPositive m d g ac false false =
      if ac then
        toFormatFixed (natChars (m / 10 ^ d))
          (trueFracWindow (m % 10 ^ d) d g) g
      else
        natChars (m / 10 ^ d) ++ '.' :: trueFracWindow (m % 10 ^ d) d g := by
  have hlt : m % 10 ^ d < 10 ^ d :=
    Nat.mod_lt _ (Nat.pos_pow_of_pos _ (by omega))
  by_cases hsh : 1 ≤ g ∧ ∀ c ∈ trueFracWindow (m % 10 ^ d) d g, c = '0'
  · have hWrep : trueFracWindow (m % 10 ^ d) d g = List.replicate g '0' := by
      have h1 : trueFracWindow (m % 10 ^ d) d g =
          List.replicate (trueFracWindow (m % 10 ^ d) d g).length '0' :=
        List.eq_replicate_of_mem hsh.2
      rw [length_trueFracWindow (m % 10 ^ d) d g hr hlt] at h1
      exact h1
    rw [formatPositive_shown_nolabel_fixed m d g ac hr hsh, hWrep]
  · exact formatPositive_not_shown_fixed m d g ac false hr hsh

theorem formatPositive_shown_label (m d g : Nat) (ac sl : Bool)
    (hr : m % 10 ^ d ≠ 0) (hq : m / 10 ^ d = 0)
    (hsh : 1 ≤ g ∧ ∀ c ∈ trueFracWindow (m % 10 ^ d) d g, c = '0') :
    formatPositive m d g ac true sl =
      '<' :: '0' :: '.' :: (List.replicate (g - 1) '0' ++ ['1']) := by
  have hlt : m % 10 ^ d < 10 ^ d :=
    Nat.mod_lt _ (Nat.pos_pow_of_pos _ (by omega))
  have hshown := (shown_iff_window_zero _ _ _ hr hlt).mpr hsh
  simp only [formatPositive]
  rw [if_neg (fun h => hr ((whole_cond_iff _ _).mp h)), if_pos hshown]
  rw [if_neg (by rw [digitsToNat_natChars]; simpa using hq)]
  simp

theorem formatPositive_not_shown_showLast (m d g : Nat) (lbl : Bool)
    (hr : m % 10 ^ d ≠ 0)
    (hns : ¬ (1 ≤ g ∧ ∀ c ∈ trueFracWindow (m % 10 ^ d) d g, c = '0')) :
    formatPositive m d g false lbl true =
      natChars (m / 10 ^ d) ++ '.' ::
        (if g ≤ (decimalPartChars (m % 10 ^ d) d).length then
            decimalPartChars (m % 10 ^ d) d
          else
            decimalPartChars (m % 10 ^ d) d ++
              List.replicate (g - (decimalPartChars (m % 10 ^ d) d).length)
                '0') := by
  have hlt : m % 10 ^ d < 10 ^ d :=
    Nat.mod_lt _ (Nat.pos_pow_of_pos _ (by omega))
  have hshown : ¬ (1 ≤ g ∧ g ≤ (decimalPartChars (m % 10 ^ d) d).length ∧
      digitsToNat ((decimalPartChars (m % 10 ^ d) d).take g) = 0) :=
    fun h => hns ((shown_iff_window_zero _ _ _ hr hlt).mp h)
  simp only [formatPositive]
  rw [if_neg (fun h => hr ((whole_cond_iff _ _).mp h)), if_neg hshown]
  simp only [Bool.false_eq_true, if_false, if_true]
  rw [trim_decimalPartChars]

/-! Support lemmas about the validating wrapper. -/

theorem valid_of_digits (s : String) (hdig : s.data.all Char.isDigit = true)
    (hne : s.data ≠ []) :
    stringIsInteger s = true ∧ s.data.head? ≠ some '-' ∧
      magnitudeChars s.data = s.data := by
  match hs : s.data with
  | [] => exact absurd hs hne
  | c :: t =>
    rw [hs] at hdig
    simp only [List.all_cons, Bool.and_eq_true] at hdig
    have hcd : c ≠ '-' := by
      intro h
      rw [h] at hdig
      exact absurd hdig.1 (by decide)
    have hhd : (c :: t).head? ≠ some '-' := by
      simp only [List.head?_cons, ne_eq, Option.some.injEq]
      exact hcd
    refine ⟨?_, hhd, ?_⟩
    · simp only [stringIsInteger, hs]
      rw [if_neg hhd]
      simp only [List.isEmpty_cons, List.all_cons, Bool.and_eq_true]
      exact (by simp [hdig.1, hdig.2])
    · simp only [magnitudeChars]
      rw [if_neg hhd]

theorem formatAmount_ok_valid (s : String) (d g : Nat) (ac lbl sl : Bool)
    (out : String) (h : formatAmount s d g ac lbl sl = Except.ok out) :
    stringIsInteger s = true := by
  by_contra hv
  rw [Bool.not_eq_true] at hv
  unfold formatAmount at h
  rw [if_neg (by simp [hv])] at h
  simp at h

theorem formatAmount_ok_zero (s : String) (d g : Nat) (ac lbl sl : Bool)
    (out : String) (h : formatAmount s d g ac lbl sl = Except.ok out)
    (hm : digitsToNat (magnitudeChars s.data) = 0) : out = ZERO := by
  have hv := formatAmount_ok_valid s d g ac lbl sl out h
  simp only [formatAmount] at h
  rw [if_pos hv, if_pos hm] at h
  exact (Except.ok.injEq _ _).mp h.symm

theorem formatAmount_ok_data (s : String) (d g : Nat) (ac lbl sl : Bool)
    (out : String) (h : formatAmount s d g ac lbl sl = Except.ok out)
    (hm : digitsToNat (magnitudeChars s.data) ≠ 0) :
    out.data = (if s.data.head? = some '-' then ['-'] else []) ++
      formatPositive (digitsToNat (magnitudeChars s.data)) d g ac lbl sl := by
  have hv := formatAmount_ok_valid s d g ac lbl sl out h
  simp only [formatAmount] at h
  rw [if_pos hv, if_neg hm] at h
  have := (Except.ok.injEq _ _).mp h
  rw [← this]

theorem formatAmount_eq_of_valid (s : String) (d g : Nat) (ac lbl sl : Bool)
    (hv : stringIsInteger s = true)
    (hm : digitsToNat (magnitudeChars s.data) ≠ 0) :
    formatAmount s d g ac lbl sl = Except.ok (String.mk
      ((if s.data.head? = some '-' then ['-'] else []) ++
        formatPositive (digitsToNat (magnitudeChars s.data)) d g ac lbl
          sl)) := by
  simp only [formatAmount]
  rw [if_pos hv, if_neg hm]

/-! The truncated window never exceeds the true fraction. -/

theorem window_value_le (r d g : Nat) (hr : r ≠ 0) (hlt : r < 10 ^ d) :
    digitsToNat (trueFracWindow r d g) * 10 ^ d ≤ r * 10 ^ g := by
  by_cases hgd : g ≤ d
  · rw [trueFracWindow_eq_take r d g hr hlt hgd]
    have hsplit : fullFracChars r d =
        (fullFracChars r d).take g ++ (fullFracChars r d).drop g :=
      (List.take_append_drop g _).symm
    have hdlen : ((fullFracChars r d).drop g).length = d - g := by
      rw [List.length_drop, length_fullFracChars r d hr hlt]
    have hval : r = digitsToNat ((fullFracChars r d).take g) * 10 ^ (d - g) +
        digitsToNat ((fullFracChars r d).drop g) := by
      conv_lhs => rw [← digitsToNat_fullFracChars r d]
      conv_lhs => rw [hsplit]
      rw [digitsToNat_append, hdlen]
    have hvle : digitsToNat ((fullFracChars r d).take g) * 10 ^ (d - g) ≤
        r := by
      conv_rhs => rw [hval]
      exact Nat.le_add_right _ _
    calc digitsToNat ((fullFracChars r d).take g) * 10 ^ d =
        digitsToNat ((fullFracChars r d).take g) * 10 ^ (d - g) * 10 ^ g := by
          rw [Nat.mul_assoc, ← pow_add]
          congr 2
          omega
      _ ≤ r * 10 ^ g := Nat.mul_le_mul_right _ hvle
  · push_neg at hgd
    rw [trueFracWindow_eq_append r d g hr hlt (by omega)]
    rw [digitsToNat_append, digitsToNat_replicate_zero,
      digitsToNat_fullFracChars]
    simp only [List.length_replicate, Nat.add_zero]
    calc r * 10 ^ (g - d) * 10 ^ d = r * 10 ^ g := by
          rw [Nat.mul_assoc, ← pow_add]
          congr 2
          omega
      _ ≤ r * 10 ^ g := le_rfl

/-! The claims. -/

/-- Claim C1: `formatAmount` fails (with the fixed message "Invalid input",
doing no further work) exactly when the input does not match the
integer-literal grammar, and succeeds with some string on every input that
matches it.  The grammar is the spec-modelled `stringIsInteger`. -/
theorem formatAmount_error_iff (input : String) (d g : Nat)
    (ac lbl sl : Bool) :
    (formatAmount input d g ac lbl sl = Except.error ("Invalid input") ↔
      stringIsInteger input = false) ∧
    (stringIsInteger input = true →
      ∃ out, formatAmount input d g ac lbl sl = Except.ok out) := by
  by_cases hv : stringIsInteger input = true
  · constructor
    · constructor
      · intro h
        exfalso
        simp only [formatAmount] at h
        rw [if_pos hv] at h
        split at h <;> simp at h
      · intro h
        rw [hv] at h
        simp at h
    · intro _
      simp only [formatAmount]
      rw [if_pos hv]
      split
      · exact ⟨ZERO, rfl⟩
      · exact ⟨_, rfl⟩
  · rw [Bool.not_eq_true] at hv
    constructor
    · constructor
      · intro _
        exact hv
      · intro _
        simp only [formatAmount]
        rw [if_neg (by simp [hv])]
    · intro h
      rw [hv] at h
      simp at h

/-- Witness for C1 at concrete inputs: "abc" is rejected with the fixed
message, and "12" is accepted with some output. -/
theorem formatAmount_error_iff_witness :
    (formatAmount ("abc") DECIMALS DIGITS false false true =
        Except.error ("Invalid input") ↔
      stringIsInteger ("abc") = false) ∧
    (∃ out, formatAmount ("12") DECIMALS DIGITS false false true =
        Except.ok out) :=
  ⟨(formatAmount_error_iff ("abc") DECIMALS DIGITS false false true).1,
    (formatAmount_error_iff ("12") DECIMALS DIGITS false false true).2
      (by decide)⟩

/-- Claim C4 is violated by the code (code_bug): at the cited inputs the
function pads the trimmed decimal "5" to `digits = 4` places and returns
"1.5000", while the claim, the spec, and the doc-comment examples of
the function itself say "1.5".  This theorem records what the code actually returns
at both inputs of the claim. -/
theorem formatAmount_default_example_values :
    formatAmountDefault ("1500000000000000000") = Except.ok ("1.5000") ∧
    formatAmount ("1500000") 6 DIGITS false false true =
      Except.ok ("1.5000") :=
  ⟨rfl, rfl⟩

/-- Claim C5 is violated by the code (code_bug): with
`showLastNonZeroDecimal = true` the `addCommas = true` path re-renders the
value with `toFormat()`, which canonicalizes away the zero-padding of the
fractional part, so the two runs do not agree on the fraction: the
`addCommas` run returns "1.5" while the plain run returns "1.5000". -/
theorem formatAmount_addCommas_fraction_differs :
    formatAmount ("1500000000000000000") DECIMALS DIGITS true false true =
      Except.ok ("1.5") ∧
    formatAmount ("1500000000000000000") DECIMALS DIGITS false false true =
      Except.ok ("1.5000") ∧
    fracSide (String.data ("1.5")) ≠ fracSide (String.data ("1.5000")) :=
  ⟨rfl, rfl, by decide⟩

/-- Claim C2: with `showLastNonZeroDecimal = false` and `digits ≥ 1`, on a
valid input with a non-zero fraction whose first `digits` fractional
digits are not all zero, the fractional part of the output is exactly the
first `digits` digits of the true fractional expansion right-padded with
zeros to exactly `digits` places (`trueFracWindow`), digits beyond
`digits` are truncated (never rounded up), and the displayed fraction
never exceeds the true fraction. -/
theorem truncation_window_exact (s : String) (d g : Nat) (ac lbl : Bool)
    (out : String) (m : Nat)
    (hm : m = digitsToNat (magnitudeChars s.data))
    (hout : formatAmount s d g ac lbl false = Except.ok out)
    (hr : m % 10 ^ d ≠ 0) (hg : 1 ≤ g)
    (hnz : ¬ ∀ c ∈ trueFracWindow (m % 10 ^ d) d g, c = '0') :
    fracSide out.data = trueFracWindow (m % 10 ^ d) d g ∧
    (trueFracWindow (m % 10 ^ d) d g).length = g ∧
    digitsToNat (trueFracWindow (m % 10 ^ d) d g) * 10 ^ d ≤
      (m % 10 ^ d) * 10 ^ g := by
  have hlt : m % 10 ^ d < 10 ^ d :=
    Nat.mod_lt _ (Nat.pos_pow_of_pos _ (by omega))
  have hm0 : m ≠ 0 := by
    intro h
    rw [h] at hr
    simp at hr
  have hdata := formatAmount_ok_data s d g ac lbl false out hout
    (by rw [← hm]; exact hm0)
  refine ⟨?_, length_trueFracWindow _ d g hr hlt,
    window_value_le _ d g hr hlt⟩
  rw [hdata, ← hm, fracSide_sign_append]
  rw [formatPositive_not_shown_fixed m d g ac lbl hr
    (fun h => hnz h.2)]
  by_cases hac : ac = true
  · rw [if_pos hac]
    unfold toFormatFixed
    rw [if_neg (by omega)]
    rw [fracSide_append_of_no_point _ _
      (point_not_mem_groupInt _ (point_not_mem_natChars _))]
    exact fracSide_point_cons _
  · rw [if_neg hac]
    rw [fracSide_append_of_no_point _ _ (point_not_mem_natChars _)]
    exact fracSide_point_cons _

/-- Witness for C2 at the example of the spec: 1.123456789 displayed with
4 fixed digits is "1.1234", the first four true fractional digits. -/
theorem truncation_window_exact_witness :
    fracSide (String.data ("1.1234")) =
      trueFracWindow (1123456789000000000 % 10 ^ 18) 18 4 ∧
    (trueFracWindow (1123456789000000000 % 10 ^ 18) 18 4).length = 4 ∧
    digitsToNat (trueFracWindow (1123456789000000000 % 10 ^ 18) 18 4) *
        10 ^ 18 ≤ (1123456789000000000 % 10 ^ 18) * 10 ^ 4 :=
  truncation_window_exact ("1123456789000000000") 18 4 false false
    ("1.1234") 1123456789000000000 (by decide) rfl (by decide) (by decide)
    (by decide)

/-- Claim C3: with `showLastNonZeroDecimal = true` and `addCommas = false`,
on a valid input with a non-zero fraction whose first `digits` fractional
digits are not all zero, the fractional part of the output is the true
fractional expansion with trailing zeros trimmed (`decimalPartChars`),
right-padded with zeros to exactly `digits` places when shorter than
`digits`, and shown in full (possibly longer than `digits`) otherwise. -/
theorem showLast_trim_pad_fraction (s : String) (d g : Nat) (lbl : Bool)
    (out : String) (m : Nat)
    (hm : m = digitsToNat (magnitudeChars s.data))
    (hout : formatAmount s d g false lbl true = Except.ok out)
    (hr : m % 10 ^ d ≠ 0)
    (hnz : ¬ ∀ c ∈ trueFracWindow (m % 10 ^ d) d g, c = '0') :
    fracSide out.data =
      (if g ≤ (decimalPartChars (m % 10 ^ d) d).length then
          decimalPartChars (m % 10 ^ d) d
        else
          decimalPartChars (m % 10 ^ d) d ++
            List.replicate (g - (decimalPartChars (m % 10 ^ d) d).length)
              '0') := by
  have hm0 : m ≠ 0 := by
    intro h
    rw [h] at hr
    simp at hr
  have hdata := formatAmount_ok_data s d g false lbl true out hout
    (by rw [← hm]; exact hm0)
  rw [hdata, ← hm, fracSide_sign_append]
  rw [formatPositive_not_shown_showLast m d g lbl hr (fun h => hnz h.2)]
  rw [fracSide_append_of_no_point _ _ (point_not_mem_natChars _)]
  exact fracSide_point_cons _

/-- Witness for C3 at the example of the tests: 56.817349973594872345 with
`digits = 4` keeps all 18 significant fractional digits. -/
theorem showLast_trim_pad_fraction_witness :
    fracSide (String.data ("56.817349973594872345")) =
      (if 4 ≤ (decimalPartChars (56817349973594872345 % 10 ^ 18) 18).length
        then decimalPartChars (56817349973594872345 % 10 ^ 18) 18
        else
          decimalPartChars (56817349973594872345 % 10 ^ 18) 18 ++
            List.replicate
              (4 - (decimalPartChars (56817349973594872345 % 10 ^ 18)
                18).length) '0') :=
  showLast_trim_pad_fraction ("56817349973594872345") 18 4 false
    ("56.817349973594872345") 56817349973594872345 (by decide) rfl
    (by decide) (by decide)

/-- Claim C6: with `digits ≥ 1` and `showIsLessThanDecimalsLabel = true`,
on a valid non-negative input whose shifted magnitude has a zero integer
part, a non-zero fraction, and first `digits` fractional digits all zero
(a sub-precision amount), the output is "<0." followed by `digits - 1`
zeros and a trailing "1", for every `addCommas` and
`showLastNonZeroDecimal`. -/
theorem less_than_label_output (s : String) (d g : Nat) (ac sl : Bool)
    (m : Nat) (hm : m = digitsToNat s.data)
    (hdig : s.data.all Char.isDigit = true) (hne : s.data ≠ [])
    (hg : 1 ≤ g) (hq : m / 10 ^ d = 0) (hr : m % 10 ^ d ≠ 0)
    (hz : ∀ c ∈ trueFracWindow (m % 10 ^ d) d g, c = '0') :
    formatAmount s d g ac true sl =
      Except.ok (String.mk
        ('<' :: '0' :: '.' :: (List.replicate (g - 1) '0' ++ ['1']))) := by
  obtain ⟨hv, hhd, hmag⟩ := valid_of_digits s hdig hne
  have hm0 : m ≠ 0 := by
    intro h
    rw [h] at hr
    simp at hr
  rw [formatAmount_eq_of_valid s d g ac true sl hv
    (by rw [hmag, ← hm]; exact hm0)]
  rw [if_neg hhd]
  rw [hmag, ← hm]
  rw [formatPositive_shown_label m d g ac sl hr hq ⟨hg, hz⟩]
  rfl

/-- Witness for C6 at the example of the spec: one atomic unit of an
18-decimals token with `digits = 4` renders as "<0.0001". -/
theorem less_than_label_output_witness :
    formatAmount ("1") 18 4 false true false =
      Except.ok (String.mk
        ('<' :: '0' :: '.' :: (List.replicate (4 - 1) '0' ++ ['1']))) :=
  less_than_label_output ("1") 18 4 false false 1 (by decide) (by decide)
    (by decide) (by decide) (by decide) (by decide) (by decide)

/-- Claim C7: for a digit-string magnitude whose formatted result is not
the zero string, formatting "-" prepended to the magnitude yields exactly
"-" prepended to the result on the magnitude, for every option choice. -/
theorem sign_invariant (s : String) (d g : Nat) (ac lbl sl : Bool)
    (out : String)
    (hdig : s.data.all Char.isDigit = true) (hne : s.data ≠ [])
    (hout : formatAmount s d g ac lbl sl = Except.ok out)
    (hnz : out ≠ ZERO) :
    formatAmount ("-" ++ s) d g ac lbl sl = Except.ok ("-" ++ out) := by
  obtain ⟨hv, hhd, hmag⟩ := valid_of_digits s hdig hne
  have hm0 : digitsToNat (magnitudeChars s.data) ≠ 0 := by
    intro h
    exact hnz (formatAmount_ok_zero s d g ac lbl sl out hout h)
  have hdata : ("-" ++ s).data = '-' :: s.data := by
    rw [String.data_append]
    rfl
  have hmagneg : magnitudeChars (("-" ++ s).data) = s.data := by
    rw [hdata]
    simp [magnitudeChars]
  have hvneg : stringIsInteger ("-" ++ s) = true := by
    simp only [stringIsInteger, hdata, List.head?_cons, if_pos rfl,
      List.tail_cons, Bool.and_eq_true]
    constructor
    · match hs : s.data with
      | [] => exact absurd hs hne
      | c :: t => simp
    · exact hdig
  have houtdata := formatAmount_ok_data s d g ac lbl sl out hout hm0
  rw [if_neg hhd] at houtdata
  rw [formatAmount_eq_of_valid ("-" ++ s) d g ac lbl sl hvneg
    (by rw [hmagneg]; rw [hmag] at hm0; exact hm0)]
  congr 1
  rw [hmagneg]
  rw [hdata]
  rw [if_pos (show ('-' :: s.data).head? = some '-' from rfl)]
  have houtd : out.data = formatPositive (digitsToNat s.data) d g ac lbl
      sl := by
    rw [houtdata, hmag]
    simp
  have hms : "-" ++ out = String.mk ('-' :: out.data) := rfl
  rw [hms, houtd]
  rfl

/-- Witness for C7 at a concrete magnitude: "15" with one decimal formats
to "1.5000", and "-15" formats to "-1.5000". -/
theorem sign_invariant_witness :
    formatAmount ("-" ++ "15") 1 4 false false true =
      Except.ok ("-" ++ "1.5000") :=
  sign_invariant ("15") 1 4 false false true ("1.5000") (by decide)
    (by decide) rfl (by decide)

/-- Claim C8: on a valid input whose shifted value is a non-zero whole
number (the fraction is zero), the output is exactly the integer digits,
thousands-grouped when `addCommas` is set and sign-prefixed when the input
is negative, with no decimal point, for every `digits`,
`showLastNonZeroDecimal` and `showIsLessThanDecimalsLabel`. -/
theorem whole_number_output (s : String) (d g : Nat) (ac lbl sl : Bool)
    (m : Nat) (hm : m = digitsToNat (magnitudeChars s.data))
    (hv : stringIsInteger s = true)
    (hm0 : m ≠ 0) (hr : m % 10 ^ d = 0) :
    ∃ out, formatAmount s d g ac lbl sl = Except.ok out ∧
      out.data = (if s.data.head? = some '-' then ['-'] else []) ++
        (if ac then groupInt (natChars (m / 10 ^ d))
          else natChars (m / 10 ^ d)) ∧
      '.' ∉ out.data := by
  rw [formatAmount_eq_of_valid s d g ac lbl sl hv (by rw [← hm]; exact hm0)]
  refine ⟨_, rfl, ?_, ?_⟩
  · rw [← hm, formatPositive_whole m d g ac lbl sl hr]
  · rw [show (String.mk ((if s.data.head? = some '-' then ['-'] else []) ++
      formatPositive (digitsToNat (magnitudeChars s.data)) d g ac lbl
        sl)).data = (if s.data.head? = some '-' then ['-'] else []) ++
      formatPositive (digitsToNat (magnitudeChars s.data)) d g ac lbl sl
      from rfl]
    intro hmem
    rcases List.mem_append.mp hmem with h | h
    · split at h <;> simp at h
    · rw [← hm, formatPositive_whole m d g ac lbl sl hr] at h
      by_cases hac : ac = true
      · rw [if_pos hac] at h
        exact point_not_mem_groupInt _ (point_not_mem_natChars _) h
      · rw [if_neg hac] at h
        exact point_not_mem_natChars _ h

/-- Witness for C8: 1000 whole units with commas renders as "1,000" with
no decimal point. -/
theorem whole_number_output_witness :
    ∃ out, formatAmount ("1000000000000000000000") 18 4 true false true =
        Except.ok out ∧
      out.data =
        (if ("1000000000000000000000" : String).data.head? = some '-' then
            ['-'] else []) ++
          (if true then
              groupInt (natChars (1000000000000000000000 / 10 ^ 18))
            else natChars (1000000000000000000000 / 10 ^ 18)) ∧
      '.' ∉ out.data :=
  whole_number_output ("1000000000000000000000") 18 4 true false true
    1000000000000000000000 (by decide) (by decide) (by decide) (by decide)

theorem window_mono (r d g1 g2 : Nat) (hr : r ≠ 0) (hlt : r < 10 ^ d)
    (hg : g1 ≤ g2) :
    trimTrailingZeros (trueFracWindow r d g1) <+: trueFracWindow r d g2 := by
  have h1 := (take_pad_eq_trueFracWindow r d g1 hr hlt).symm
  rw [h1, trimTrailingZeros_append_replicate]
  have p1 : trimTrailingZeros ((decimalPartChars r d).take g1) <+:
      (decimalPartChars r d).take g1 :=
    ⟨_, (trimTrailingZeros_spec _).symm⟩
  have p2 : (decimalPartChars r d).take g1 <+:
      (decimalPartChars r d).take g2 := by
    have htt : ((decimalPartChars r d).take g2).take g1 =
        (decimalPartChars r d).take g1 := by
      rw [List.take_take, Nat.min_eq_left hg]
    refine ⟨((decimalPartChars r d).take g2).drop g1, ?_⟩
    rw [← htt]
    exact List.take_append_drop g1 _
  have p3 : (decimalPartChars r d).take g2 <+: trueFracWindow r d g2 := by
    rw [← take_pad_eq_trueFracWindow r d g2 hr hlt]
    exact ⟨_, rfl⟩
  exact (p1.trans p2).trans p3

/-- Claim C9: with `showLastNonZeroDecimal = false`, `addCommas = false`
and `showIsLessThanDecimalsLabel = false`, raising `digits` from `g1` to
`g2` never removes fractional digits already shown: the integer sides
agree and the fraction of the output at `g1`, after trimming its trailing
zeros, comes first in the fraction of the output at `g2`, so the two outputs differ only
in truncation point and trailing padding zeros. -/
theorem truncation_monotone (s : String) (d g1 g2 : Nat) (o1 o2 : String)
    (hg : g1 ≤ g2)
    (h1 : formatAmount s d g1 false false false = Except.ok o1)
    (h2 : formatAmount s d g2 false false false = Except.ok o2) :
    intSide o1.data = intSide o2.data ∧
    trimTrailingZeros (fracSide o1.data) <+: fracSide o2.data := by
  by_cases hm : digitsToNat (magnitudeChars s.data) = 0
  · have e1 := formatAmount_ok_zero s d g1 false false false o1 h1 hm
    have e2 := formatAmount_ok_zero s d g2 false false false o2 h2 hm
    subst e1
    subst e2
    exact ⟨rfl, ⟨[], rfl⟩⟩
  · have e1 := formatAmount_ok_data s d g1 false false false o1 h1 hm
    have e2 := formatAmount_ok_data s d g2 false false false o2 h2 hm
    by_cases hr : digitsToNat (magnitudeChars s.data) % 10 ^ d = 0
    · rw [formatPositive_whole _ d g1 false false false hr] at e1
      rw [formatPositive_whole _ d g2 false false false hr] at e2
      simp only [Bool.false_eq_true, if_false] at e1 e2
      rw [e1, e2]
      refine ⟨rfl, ?_⟩
      rw [fracSide_sign_append,
        fracSide_of_no_point _ (point_not_mem_natChars _)]
      exact ⟨[], rfl⟩
    · have hlt : digitsToNat (magnitudeChars s.data) % 10 ^ d < 10 ^ d :=
        Nat.mod_lt _ (Nat.pos_pow_of_pos _ (by omega))
      rw [formatPositive_fixed _ d g1 false hr] at e1
      rw [formatPositive_fixed _ d g2 false hr] at e2
      simp only [Bool.false_eq_true, if_false] at e1 e2
      rw [e1, e2]
      constructor
      · rw [intSide_sign_append, intSide_sign_append,
          intSide_append_of_no_point _ _ (point_not_mem_natChars _),
          intSide_append_of_no_point _ _ (point_not_mem_natChars _),
          intSide_point_cons, intSide_point_cons]
      · rw [fracSide_sign_append, fracSide_sign_append,
          fracSide_append_of_no_point _ _ (point_not_mem_natChars _),
          fracSide_append_of_no_point _ _ (point_not_mem_natChars _),
          fracSide_point_cons, fracSide_point_cons]
        exact window_mono _ d g1 g2 hr hlt hg

/-- Witness for C9: 1.23 with one decimal shown ("1.2") against four
("1.2300"): the trimmed fraction "2" is a prefix of "2300". -/
theorem truncation_monotone_witness :
    intSide (String.data ("1.2")) = intSide (String.data ("1.2300")) ∧
    trimTrailingZeros (fracSide (String.data ("1.2"))) <+:
      fracSide (String.data ("1.2300")) :=
  truncation_monotone ("1230000000000000000") 18 1 4 ("1.2") ("1.2300")
    (by decide) rfl rfl

/-- Claim C10: with `digits = 0`, `showLastNonZeroDecimal = false`,
`showIsLessThanDecimalsLabel = false` and `addCommas = false`, a valid
non-negative input with a non-zero fraction renders as the integer part
followed by a bare trailing decimal point with nothing after it. -/
theorem digits_zero_bare_point (s : String) (d : Nat)
    (hdig : s.data.all Char.isDigit = true) (hne : s.data ≠ [])
    (hr : digitsToNat s.data % 10 ^ d ≠ 0) :
    formatAmount s d 0 false false false =
      Except.ok (String.mk
        (natChars (digitsToNat s.data / 10 ^ d) ++ ['.'])) := by
  obtain ⟨hv, hhd, hmag⟩ := valid_of_digits s hdig hne
  have hm0 : digitsToNat s.data ≠ 0 := by
    intro h
    rw [h] at hr
    simp at hr
  rw [formatAmount_eq_of_valid s d 0 false false false hv
    (by rw [hmag]; exact hm0)]
  rw [if_neg hhd]
  rw [hmag]
  rw [formatPositive_fixed (digitsToNat s.data) d 0 false hr]
  simp only [Bool.false_eq_true, if_false]
  rw [show trueFracWindow (digitsToNat s.data % 10 ^ d) d 0 = [] from rfl]
  rfl

/-- Witness for C10: input "15" with one decimal (value 1.5) and
`digits = 0` renders as "1." with a bare trailing point. -/
theorem digits_zero_bare_point_witness :
    formatAmount ("15") 1 0 false false false =
      Except.ok (String.mk (natChars (digitsToNat
        (String.data ("15")) / 10 ^ 1) ++ ['.'])) :=
  digits_zero_bare_point ("15") 1 (by decide) (by decide) (by decide)

end SdkDappUtils
